import Mathlib

set_option maxRecDepth 20000

namespace GoraphqlMockServer

/-- JSON-like runtime values, modelling the Go `any` values that appear in
GraphQL variable maps and response payloads. Go `int` and `float64` are
distinct types, hence distinct constructors (`vFloat` carries a rational;
IEEE round-off and NaN are out of scope for the claims). Go maps are
modelled as association lists whose keys are distinct. Go distinguishes a
nil slice/map from a non-nil empty one (`reflect.DeepEqual` requires both
operands to be nil or both non-nil), so nil collections get their own
constructors; a nil `any` interface is `vNull`. -/
inductive Value where
  | vNull : Value
  | vBool : Bool → Value
  | vInt : Int → Value
  | vFloat : Rat → Value
  | vStr : String → Value
  | vList : List Value → Value
  | vObj : List (String × Value) → Value
  | vNilList : Value
  | vNilObj : Value

/-- A Go `map[string]any`, as an association list (keys distinct when it
models an actual Go map). -/
abbrev VarMap := List (String × Value)

/-- Key lookup in an association list (first occurrence), modelling Go map
indexing. -/
def lookupKey : List (String × Value) → String → Option Value
  | [], _ => none
  | p :: rest, key => if p.1 = key then some p.2 else lookupKey rest key

/-- Character predicate of Go's `unicode.IsSpace`, used by
`strings.TrimSpace` in `server.handler`. -/
def goIsSpace (c : Char) : Bool :=
  c == '\t' || c == '\n' || c == Char.ofNat 11 || c == Char.ofNat 12 ||
  c == '\r' || c == ' ' || c == Char.ofNat 0x85 || c == Char.ofNat 0xA0 ||
  c == Char.ofNat 0x1680 ||
  (0x2000 ≤ c.toNat && c.toNat ≤ 0x200A) ||
  c == Char.ofNat 0x2028 || c == Char.ofNat 0x2029 ||
  c == Char.ofNat 0x202F || c == Char.ofNat 0x205F || c == Char.ofNat 0x3000

/-- Go `strings.TrimSpace`: drop leading and trailing whitespace. -/
def goTrimSpace (s : String) : String :=
  String.mk (((s.data.dropWhile goIsSpace).reverse.dropWhile goIsSpace).reverse)

/-- Go `strings.HasPrefix`. -/
def goStartsWith (s pre : String) : Bool :=
  List.isPrefixOf pre.data s.data

/-- Helper for `goContains`: does `sub` occur as a contiguous run of `s`? -/
def containsAux (sub : List Char) : List Char → Bool
  | [] => List.isPrefixOf sub []
  | c :: t => List.isPrefixOf sub (c :: t) || containsAux sub t

/-- Go `strings.Contains s sub`: case-sensitive plain substring containment. -/
def goContains (s sub : String) : Bool :=
  containsAux sub.data s.data

mutual

/-- Deep equality, modelling Go's `reflect.DeepEqual` on JSON-like values:
scalars must agree in both dynamic type and value, slices are compared
element-wise, and maps are compared by length plus key-wise value equality.
A nil slice/map is deeply equal only to a nil slice/map of the same kind:
the catch-all makes nil vs non-nil (even non-nil empty) false, which is
Go's both-nil-or-both-non-nil rule. -/
def deepEqual : Value → Value → Bool
  | .vNull, .vNull => true
  | .vBool a, .vBool b => a == b
  | .vInt a, .vInt b => a == b
  | .vFloat a, .vFloat b => a == b
  | .vStr a, .vStr b => a == b
  | .vList a, .vList b => deepEqualList a b
  | .vObj a, .vObj b => a.length == b.length && deepEqualObj a b
  | .vNilList, .vNilList => true
  | .vNilObj, .vNilObj => true
  | _, _ => false

def deepEqualList : List Value → List Value → Bool
  | [], [] => true
  | x :: xs, y :: ys => deepEqual x y && deepEqualList xs ys
  | _, _ => false

def deepEqualObj : List (String × Value) → List (String × Value) → Bool
  | [], _ => true
  | p :: rest, b =>
    (match lookupKey b p.1 with
     | some w => deepEqual p.2 w
     | none => false) && deepEqualObj rest b

end

/-- Well-formed, nil-collection-free values: every object (Go map) has
pairwise-distinct keys and no nil slice/map occurs anywhere. Values decoded
from JSON always satisfy this (JSON `[]`/`{}` decode to non-nil empty
collections); a registered reference satisfies it when the test author does
not embed nil collections. -/
inductive WFV : Value → Prop where
  | vNull : WFV .vNull
  | vBool (b : Bool) : WFV (.vBool b)
  | vInt (n : Int) : WFV (.vInt n)
  | vFloat (q : Rat) : WFV (.vFloat q)
  | vStr (s : String) : WFV (.vStr s)
  | vList (xs : List Value) : (∀ x ∈ xs, WFV x) → WFV (.vList xs)
  | vObj (l : List (String × Value)) : (l.map Prod.fst).Nodup →
      (∀ p ∈ l, WFV p.2) → WFV (.vObj l)

/-- Deep equality as the specification states it: scalars equal when type and
value agree, lists element-wise, and maps have the same key set with
deeply-equal values at every common key. The specification's notion is
structural and blind to Go nil-ness, so a nil slice/map is element-wise
indistinguishable from an empty one and the cross constructors relate
them. -/
inductive DeepEq : Value → Value → Prop where
  | vNull : DeepEq .vNull .vNull
  | vBool (b : Bool) : DeepEq (.vBool b) (.vBool b)
  | vInt (n : Int) : DeepEq (.vInt n) (.vInt n)
  | vFloat (q : Rat) : DeepEq (.vFloat q) (.vFloat q)
  | vStr (s : String) : DeepEq (.vStr s) (.vStr s)
  | vList (xs ys : List Value) : xs.length = ys.length →
      (∀ (i : Nat) (x y : Value), xs[i]? = some x → ys[i]? = some y →
        DeepEq x y) →
      DeepEq (.vList xs) (.vList ys)
  | vObj (a b : List (String × Value)) :
      (∀ k, (lookupKey a k).isSome = (lookupKey b k).isSome) →
      (∀ k v w, lookupKey a k = some v → lookupKey b k = some w → DeepEq v w) →
      DeepEq (.vObj a) (.vObj b)
  | vNilList : DeepEq .vNilList .vNilList
  | vNilObj : DeepEq .vNilObj .vNilObj
  | nilList_emptyList : DeepEq .vNilList (.vList [])
  | emptyList_nilList : DeepEq (.vList []) .vNilList
  | nilObj_emptyObj : DeepEq .vNilObj (.vObj [])
  | emptyObj_nilObj : DeepEq (.vObj []) .vNilObj

/-- The decoded GraphQL request body (`Request` in the source): the raw query
text and the loosely-typed variable map (field `Variables` in the source;
`variables` is a reserved word in Lean, hence `vars`). -/
structure Request where
  query : String
  vars : VarMap

/-- The `MockedRequest` interface: a variable-comparison strategy paired with
the response payload that `Response()` yields for this entry. -/
structure MockedRequest where
  compareVariables : VarMap → Bool
  response : Value

/-- One entry of the `errors` array (`ResponseError` in the source). `path`
and `extensions` model Go `nil`-able fields: `none` is Go `nil`. -/
structure ResponseError where
  message : String
  path : Option (List String)
  extensions : Option Value

/-- The `{data, errors}` envelope (`Response` in the source). `data` has no
`omitempty` tag; `errors` does. -/
structure Response where
  data : Option Value
  errors : List ResponseError

/-- JSON serialization of one `ResponseError` under Go's `encoding/json`
struct-tag rules: all three fields lack `omitempty`, so each is always
emitted, with `null` for a nil slice or nil interface. -/
def encodeResponseError (e : ResponseError) : Value :=
  .vObj [("message", .vStr e.message),
         ("path", match e.path with
                  | none => .vNull
                  | some l => .vList (l.map Value.vStr)),
         ("extensions", match e.extensions with
                        | none => .vNull
                        | some v => v)]

/-- JSON serialization of the envelope under Go's `encoding/json` rules:
`data` has no `omitempty` tag so it is always emitted (`null` when nil);
`errors` has `omitempty` so it is dropped when the slice is nil or empty. -/
def encodeResponse (r : Response) : Value :=
  .vObj ([("data", r.data.getD .vNull)] ++
    (if r.errors.isEmpty then []
     else [("errors", .vList (r.errors.map encodeResponseError))]))

/-- The source's `respondError`: an envelope with no data and a single error
whose path is nil. The `Nat` is the HTTP status code. -/
def respondError (status : Nat) (msg : String) (extensions : Option Value) :
    Nat × Response :=
  (status, { data := none,
             errors := [{ message := msg, path := none,
                          extensions := extensions }] })

/-- The source's `respondResponse`: an envelope carrying the payload and no
errors. -/
def respondResponse (status : Nat) (data : Value) : Nat × Response :=
  (status, { data := some data, errors := [] })

/-- The server's `queries` map in one concrete iteration order. Go map
iteration order is unspecified, so theorems about more than one identifier
hold for every order or use a single-identifier registry. Within one
identifier the entry list is in registration order (`RegisterQuery`
appends). -/
abbrev Registry := List (String × List MockedRequest)

/-- The inner loop of `server.handler` together with `server.handleQuery`:
scan one identifier's entries in registration order and return the first
matching entry's response. -/
def scanEntries : List MockedRequest → VarMap → Option Value
  | [], _ => none
  | m :: rest, v =>
    if m.compareVariables v then some m.response else scanEntries rest v

/-- The outer loop of `server.handler`: for each identifier contained in the
raw query text, scan its entries; the first match anywhere wins. -/
def scanRegistry : Registry → Request → Option Value
  | [], _ => none
  | (id, entries) :: rest, req =>
    if goContains req.query id then
      match scanEntries entries req.vars with
      | some r => some r
      | none => scanRegistry rest req
    else scanRegistry rest req

/-- A failure of `json.NewDecoder(r.Body).Decode(&reqBody)`, carried as the
text Go's `fmt` renders for the error value under the `%e` verb. `%e` does
not apply to an error (and is not a string verb, so `Error()` is never
called); `fmt` descends into the compound operand and applies the verb to
each element, producing for the pointer-to-struct errors of `encoding/json`
a rendering like `&{%!e(string=...) %!e(int64=...)}` — per-field bad-verb
forms, not the error's `Error()` text. -/
structure DecodeError where
  rendering : String

/-- The message built by `fmt.Errorf("goraphql_mock_server: decode request
body: %e", err)`: the format string's literal prefix followed by the `%e`
rendering of the error value. -/
def decodeFailMessage (e : DecodeError) : String :=
  "goraphql_mock_server: decode request body: " ++ e.rendering

/-- The fixed not-found message of `server.handler`. -/
def msgNotFound : String := "goraphql_mock_server: mocked request not found"

/-- Outcome of decoding the HTTP body into a `Request`; the transport decode
itself is external to the core. -/
inductive BodyResult where
  | ok : Request → BodyResult
  | err : DecodeError → BodyResult

/-- The source's `server.handler`: decode failure yields a 500 envelope with
the decode message; a request whose trimmed query starts with `query` is
dispatched through the registry; everything else, and every unmatched
request, yields the fixed 404 not-found envelope. -/
def handler (qs : Registry) (body : BodyResult) : Nat × Response :=
  match body with
  | .err e => respondError 500 (decodeFailMessage e) none
  | .ok req =>
    if goStartsWith (goTrimSpace req.query) "query" then
      match scanRegistry qs req with
      | some r => respondResponse 200 r
      | none => respondError 404 msgNotFound none
    else respondError 404 msgNotFound none

/-- The `NoVariable` matcher: accepts only an empty variable map. -/
def NoVariable.compareVariables (got : VarMap) : Bool :=
  got.length == 0

/-- The `KeyOnlyVariables` matcher type: a list of expected key names. -/
abbrev KeyOnlyVariables := List String

/-- The `KeyOnlyVariables.CompareVariables` method: build the `want` set from
the key list (`List.dedup` models insertion into the Go `map[string]bool`),
fail if the cardinalities differ, then require every incoming key to be in
the set. -/
def KeyOnlyVariables.compareVariables (kv : KeyOnlyVariables) (got : VarMap) :
    Bool :=
  let want := kv.dedup
  want.length == got.length && got.all (fun p => want.contains p.1)

/-- The test file's `EncodedVariable`: the one `VariableDecoder` in the
repository, a struct with fields `Foo string` (tag `foo`) and `Num int`
(tag `num`). -/
structure EncodedVariable where
  foo : String
  num : Int
deriving DecidableEq

/-- Case-insensitive matching of a JSON object key against a struct field
name, as `encoding/json` does (a key matches a field exactly or under
`strings.EqualFold`; `DisallowUnknownFields` rejects only keys matching no
field). For the ASCII field names `foo` and `num` Unicode simple case
folding is exactly ASCII case insensitivity, modelled by per-character
`Char.toLower`. -/
def jsonKeyMatches (k field : String) : Bool :=
  k.data.map Char.toLower == field.data

/-- Decoding a single JSON object field into an `EncodedVariable` under
`json.Decoder` with `DisallowUnknownFields`: keys matching neither `foo` nor
`num` (case-insensitively) are rejected, `foo` needs a JSON string, `num`
needs an integral JSON number that fits in a 64-bit Go `int`, and JSON
`null` leaves the field at its zero value. -/
def decodeField (acc : EncodedVariable) (p : String × Value) :
    Option EncodedVariable :=
  if jsonKeyMatches p.1 "foo" then
    match p.2 with
    | .vStr s => some { acc with foo := s }
    | .vNull => some acc
    | _ => none
  else if jsonKeyMatches p.1 "num" then
    match p.2 with
    | .vInt n =>
      if -(2 ^ 63) ≤ n ∧ n < 2 ^ 63 then some { acc with num := n } else none
    | .vFloat q =>
      if q.den = 1 ∧ -(2 ^ 63) ≤ q.num ∧ q.num < 2 ^ 63 then
        some { acc with num := q.num }
      else none
    | .vNull => some acc
    | _ => none
  else none

/-- Lexicographic order on character sequences: for valid UTF-8 this is the
byte order in which `json.Marshal` sorts map keys. -/
def charListLe : List Char → List Char → Bool
  | [], _ => true
  | _ :: _, [] => false
  | a :: as, b :: bs =>
    if a.toNat < b.toNat then true
    else if b.toNat < a.toNat then false
    else charListLe as bs

/-- Insert one entry into a key-sorted association list. -/
def insertSorted (p : String × Value) : VarMap → VarMap
  | [] => [p]
  | q :: rest =>
    if charListLe p.1.data q.1.data then p :: q :: rest
    else q :: insertSorted p rest

/-- Sort a variable map by key, modelling that `json.Marshal` writes a Go
map's keys in sorted order during the round-trip (only observable when two
distinct keys case-fold to the same field). -/
def sortByKey : VarMap → VarMap
  | [] => []
  | p :: rest => insertSorted p (sortByKey rest)

/-- The test file's `EncodedVariable.Variable` method (named `decodeVariable`
here because `variable` is a Lean keyword): reject an empty map or one with
more than 2 keys, then round-trip the map through JSON (keys in sorted
order) into an `EncodedVariable`, rejecting unknown fields. -/
def EncodedVariable.decodeVariable (req : VarMap) : Option EncodedVariable :=
  if req.length == 0 then none
  else if req.length > 2 then none
  else (sortByKey req).foldlM decodeField { foo := "", num := 0 }

/-- A Go `map[string]any` at runtime: Go distinguishes a nil map from a
non-nil (possibly empty) one. The incoming `req.Variables` is nil when the
body carries no `variables` field. -/
inductive GoMap where
  | nilMap : GoMap
  | mk : VarMap → GoMap

/-- The entries of a Go map; a nil map has none (`len` 0, no iteration). -/
def GoMap.entries : GoMap → VarMap
  | .nilMap => []
  | .mk l => l

/-- The map as a `Value` operand of `reflect.DeepEqual`. -/
def GoMap.toValue : GoMap → Value
  | .nilMap => .vNilObj
  | .mk l => .vObj l

/-- The `Variables any` field of `ExactVariables`, restricted to the two
reference shapes the repository exercises: a raw `map[string]any` (which
does not implement `VariableDecoder`) or an `EncodedVariable` (which
does). -/
inductive ExactVariables where
  | raw : GoMap → ExactVariables
  | enc : EncodedVariable → ExactVariables

/-- The `ExactVariables.CompareVariables` method: when the reference
implements `VariableDecoder`, decode the incoming map (a nil incoming map
has length 0, so the decoder's empty guard rejects it) and fail if decoding
fails; then compare with `reflect.DeepEqual` (structural equality for the
two-field struct, `deepEqual` for raw maps). -/
def ExactVariables.compareVariables : ExactVariables → GoMap → Bool
  | .raw r, reqVar => deepEqual r.toValue reqVar.toValue
  | .enc e, reqVar =>
    match EncodedVariable.decodeVariable reqVar.entries with
    | some got => e == got
    | none => false

/-- An always-accepting mocked request used as a concrete example entry. -/
def mAll : MockedRequest := ⟨fun _ => true, .vStr "r"⟩

/-- Concrete entry A for registration-order examples. -/
def mA : MockedRequest := ⟨fun _ => true, .vStr "A"⟩

/-- Concrete entry B for registration-order examples. -/
def mB : MockedRequest := ⟨fun _ => true, .vStr "B"⟩

/-- Whether a serialized JSON object carries a field of the given name. -/
def hasField (v : Value) (k : String) : Bool :=
  match v with
  | .vObj fields => fields.any fun p => p.1 == k
  | _ => false

/-- List-level characterization of `List.isPrefixOf` on characters. -/
theorem isPrefixOf_eq_true_iff (a b : List Char) :
    List.isPrefixOf a b = true ↔ ∃ t, a ++ t = b := by
  induction a generalizing b with
  | nil => simp
  | cons x xs ih =>
    cases b with
    | nil => simp
    | cons y ys =>
      rw [List.isPrefixOf_cons₂]
      simp only [Bool.and_eq_true, beq_iff_eq, ih, List.cons_append,
        List.cons.injEq]
      constructor
      · rintro ⟨rfl, t, rfl⟩
        exact ⟨t, rfl, rfl⟩
      · rintro ⟨t, rfl, rfl⟩
        exact ⟨rfl, t, rfl⟩

/-- Characterization of the substring scan `containsAux`. -/
theorem containsAux_eq_true_iff (sub s : List Char) :
    containsAux sub s = true ↔ ∃ pre post, s = pre ++ (sub ++ post) := by
  induction s with
  | nil =>
    simp only [containsAux, isPrefixOf_eq_true_iff]
    constructor
    · rintro ⟨t, ht⟩
      exact ⟨[], t, ht.symm⟩
    · rintro ⟨pre, post, h⟩
      have h2 := h.symm
      simp only [List.append_eq_nil] at h2
      exact ⟨[], by simp [h2.2.1, h2.2.2]⟩
  | cons c t ih =>
    simp only [containsAux, Bool.or_eq_true, isPrefixOf_eq_true_iff, ih]
    constructor
    · rintro (⟨u, hu⟩ | ⟨pre, post, h⟩)
      · exact ⟨[], u, hu.symm⟩
      · exact ⟨c :: pre, post, by simp [h]⟩
    · rintro ⟨pre, post, h⟩
      cases pre with
      | nil => exact Or.inl ⟨post, by simpa using h.symm⟩
      | cons c0 pre0 =>
        simp only [List.cons_append, List.cons.injEq] at h
        exact Or.inr ⟨pre0, post, h.2⟩

/-- Go `strings.Contains` holds exactly when the needle occurs contiguously
in the haystack: case-sensitive plain containment, no wildcard or regex. -/
theorem goContains_eq_true_iff (s sub : String) :
    goContains s sub = true ↔ ∃ pre post, s.data = pre ++ sub.data ++ post := by
  rw [goContains, containsAux_eq_true_iff]
  constructor
  · rintro ⟨pre, post, h⟩
    exact ⟨pre, post, by simp [h]⟩
  · rintro ⟨pre, post, h⟩
    exact ⟨pre, post, by simp [h]⟩

/-- The empty string is contained in every string. -/
theorem goContains_empty (s : String) : goContains s "" = true := by
  rw [goContains_eq_true_iff]
  exact ⟨[], s.data, by simp⟩

/-- A string contains any of its middle segments. -/
theorem goContains_append (a m b : String) :
    goContains (a ++ m ++ b) m = true := by
  rw [goContains_eq_true_iff]
  exact ⟨a.data, b.data, by simp⟩

/-- Lookup succeeds exactly on the keys of the association list. -/
theorem lookupKey_isSome_iff (l : List (String × Value)) (k : String) :
    (lookupKey l k).isSome = true ↔ k ∈ l.map Prod.fst := by
  induction l with
  | nil => simp [lookupKey]
  | cons p rest ih =>
    rw [List.map_cons]
    by_cases h : p.1 = k
    · simp [lookupKey, h]
    · rw [lookupKey, if_neg h]
      simp only [List.mem_cons]
      rw [ih]
      constructor
      · exact Or.inr
      · rintro (h0 | h0)
        · exact absurd h0.symm h
        · exact h0

/-- A successful lookup returns an element of the list. -/
theorem lookupKey_eq_some_mem {l : List (String × Value)} {k : String}
    {v : Value} (h : lookupKey l k = some v) : (k, v) ∈ l := by
  induction l with
  | nil => simp [lookupKey] at h
  | cons p rest ih =>
    obtain ⟨a, b⟩ := p
    by_cases hp : a = k
    · rw [lookupKey, if_pos hp] at h
      cases h
      subst hp
      exact List.mem_cons_self _ _
    · rw [lookupKey, if_neg hp] at h
      exact List.mem_cons_of_mem _ (ih h)

/-- With distinct keys, membership determines the lookup result. -/
theorem lookupKey_eq_some_of_nodup {l : List (String × Value)}
    (hnd : (l.map Prod.fst).Nodup) {k : String} {v : Value}
    (h : (k, v) ∈ l) : lookupKey l k = some v := by
  induction l with
  | nil => simp at h
  | cons p rest ih =>
    rw [List.map_cons, List.nodup_cons] at hnd
    rcases List.mem_cons.mp h with h0 | h0
    · rw [← h0, lookupKey, if_pos rfl]
    · have hk : k ∈ rest.map Prod.fst :=
        List.mem_map.mpr ⟨(k, v), h0, rfl⟩
      have hne : p.1 ≠ k := fun he => hnd.1 (he ▸ hk)
      rw [lookupKey, if_neg hne]
      exact ih hnd.2 h0

/-- The map scan of `deepEqual` holds exactly when every entry of the left
list has a deeply-equal value under the same key on the right. -/
theorem deepEqualObj_eq_true_iff (a b : List (String × Value)) :
    deepEqualObj a b = true ↔
      ∀ p ∈ a, ∃ w, lookupKey b p.1 = some w ∧ deepEqual p.2 w = true := by

  induction a with
  | nil => simp [deepEqualObj]
  | cons p rest ih =>
    cases hl : lookupKey b p.1 with
    | none => simp [deepEqualObj, hl, ih]
    | some w => simp [deepEqualObj, hl, ih]

/-- The slice scan of `deepEqual` holds exactly when lengths agree and
elements are pairwise deeply equal. -/
theorem deepEqualList_eq_true_iff (xs ys : List Value) :
    deepEqualList xs ys = true ↔
      xs.length = ys.length ∧
        ∀ (i : Nat) (x y : Value), xs[i]? = some x → ys[i]? = some y →
          deepEqual x y = true := by
  induction xs generalizing ys with
  | nil =>
    cases ys with
    | nil => simp [deepEqualList]
    | cons y ys => simp [deepEqualList]
  | cons x xs ih =>
    cases ys with
    | nil => simp [deepEqualList]
    | cons y ys =>
      rw [deepEqualList, Bool.and_eq_true, ih]
      constructor
      · rintro ⟨hxy, hlen, hptw⟩
        refine ⟨by simp [hlen], ?_⟩
        intro i a b ha hb
        cases i with
        | zero =>
          simp only [List.getElem?_cons_zero, Option.some.injEq] at ha hb
          rw [← ha, ← hb]
          exact hxy
        | succ j =>
          simp only [List.getElem?_cons_succ] at ha hb
          exact hptw j a b ha hb
      · rintro ⟨hlen, hptw⟩
        refine ⟨hptw 0 x y (by simp) (by simp), by simpa using hlen, ?_⟩
        intro j a b ha hb
        exact hptw (j + 1) a b (by simpa using ha) (by simpa using hb)

/-- Inversion: elements of a well-formed list value are well-formed. -/
theorem WFV.list_mem {xs : List Value} (h : WFV (.vList xs)) :
    ∀ x ∈ xs, WFV x := by
  cases h with
  | vList _ h0 => exact h0

/-- Inversion: a well-formed object has distinct keys. -/
theorem WFV.obj_nodup {l : List (String × Value)} (h : WFV (.vObj l)) :
    (l.map Prod.fst).Nodup := by
  cases h with
  | vObj _ h0 _ => exact h0

/-- Inversion: values of a well-formed object are well-formed. -/
theorem WFV.obj_mem {l : List (String × Value)} (h : WFV (.vObj l)) :
    ∀ p ∈ l, WFV p.2 := by
  cases h with
  | vObj _ _ h0 => exact h0

/-- The value component of a list entry is smaller than the list. -/
theorem sizeOf_snd_lt_of_mem {p : String × Value}
    {l : List (String × Value)} (h : p ∈ l) : sizeOf p.2 < sizeOf l := by
  have h1 := List.sizeOf_lt_of_mem h
  obtain ⟨a, b⟩ := p
  simp at h1 ⊢
  omega

/-- With distinct keys on both sides, a key-wise subset of equal length has
the same key set. -/
theorem keys_eq_of_subset_of_length {a b : List (String × Value)}
    (hna : (a.map Prod.fst).Nodup) (hnb : (b.map Prod.fst).Nodup)
    (hlen : a.length = b.length)
    (hsub : ∀ k, k ∈ a.map Prod.fst → k ∈ b.map Prod.fst) :
    ∀ k, k ∈ a.map Prod.fst ↔ k ∈ b.map Prod.fst := by
  have hfs : (a.map Prod.fst).toFinset ⊆ (b.map Prod.fst).toFinset := by
    intro k hk
    rw [List.mem_toFinset] at hk ⊢
    exact hsub k hk
  have hca : (a.map Prod.fst).toFinset.card = (a.map Prod.fst).length :=
    List.toFinset_card_of_nodup hna
  have hcb : (b.map Prod.fst).toFinset.card = (b.map Prod.fst).length :=
    List.toFinset_card_of_nodup hnb
  have hla : (a.map Prod.fst).length = a.length := List.length_map _ _
  have hlb : (b.map Prod.fst).length = b.length := List.length_map _ _
  have hfe : (a.map Prod.fst).toFinset = (b.map Prod.fst).toFinset :=
    Finset.eq_of_subset_of_card_le hfs (by omega)
  intro k
  simp only [← List.mem_toFinset, hfe]

/-- With distinct keys on both sides, equal key sets force equal lengths. -/
theorem length_eq_of_keys_iff {a b : List (String × Value)}
    (hna : (a.map Prod.fst).Nodup) (hnb : (b.map Prod.fst).Nodup)
    (hiff : ∀ k, k ∈ a.map Prod.fst ↔ k ∈ b.map Prod.fst) :
    a.length = b.length := by
  have hfe : (a.map Prod.fst).toFinset = (b.map Prod.fst).toFinset := by
    ext k
    simp only [List.mem_toFinset]
    exact hiff k
  have hca : (a.map Prod.fst).toFinset.card = (a.map Prod.fst).length :=
    List.toFinset_card_of_nodup hna
  have hcb : (b.map Prod.fst).toFinset.card = (b.map Prod.fst).length :=
    List.toFinset_card_of_nodup hnb
  have hla : (a.map Prod.fst).length = a.length := List.length_map _ _
  have hlb : (b.map Prod.fst).length = b.length := List.length_map _ _
  rw [hfe] at hca
  omega

/-- Soundness of the code's `deepEqual` for the spec-level `DeepEq`, bounded
by value size to drive the induction. -/
theorem deepEqual_sound : ∀ (n : Nat) (a b : Value), sizeOf a ≤ n →
    deepEqual a b = true → WFV a → WFV b → DeepEq a b := by
  intro n
  induction n with
  | zero =>
    intro a b hle hde ha hb
    exfalso
    cases a <;> simp at hle
  | succ n ih =>
    intro a b hle hde ha hb
    cases a <;> cases b <;> simp only [deepEqual] at hde <;>
      try exact Bool.noConfusion hde
    case vNull.vNull => exact DeepEq.vNull
    case vNilList.vNilList => exact DeepEq.vNilList
    case vNilObj.vNilObj => exact DeepEq.vNilObj
    case vBool.vBool x y =>
      rw [beq_iff_eq] at hde
      rw [hde]
      exact DeepEq.vBool y
    case vInt.vInt x y =>
      rw [beq_iff_eq] at hde
      rw [hde]
      exact DeepEq.vInt y
    case vFloat.vFloat x y =>
      rw [beq_iff_eq] at hde
      rw [hde]
      exact DeepEq.vFloat y
    case vStr.vStr x y =>
      rw [beq_iff_eq] at hde
      rw [hde]
      exact DeepEq.vStr y
    case vList.vList xs ys =>
      rw [deepEqualList_eq_true_iff] at hde
      obtain ⟨hlen, hptw⟩ := hde
      refine DeepEq.vList xs ys hlen ?_
      intro i x y hx hy
      have hmem : x ∈ xs := List.getElem?_mem hx
      have hle2 : 1 + sizeOf xs ≤ n + 1 := by simpa using hle
      have hsz : sizeOf x ≤ n := by
        have := List.sizeOf_lt_of_mem hmem
        omega
      exact ih x y hsz (hptw i x y hx hy) (ha.list_mem x hmem)
        (hb.list_mem y (List.getElem?_mem hy))
    case vObj.vObj a0 b0 =>
      simp only [Bool.and_eq_true, beq_iff_eq] at hde
      obtain ⟨hlen, hobj⟩ := hde
      rw [deepEqualObj_eq_true_iff] at hobj
      have hsub : ∀ k, k ∈ a0.map Prod.fst → k ∈ b0.map Prod.fst := by
        intro k hk
        obtain ⟨p, hp, rfl⟩ := List.mem_map.mp hk
        obtain ⟨w, hw, _⟩ := hobj p hp
        rw [← lookupKey_isSome_iff, hw]
        rfl
      have hiff := keys_eq_of_subset_of_length ha.obj_nodup hb.obj_nodup
        hlen hsub
      refine DeepEq.vObj a0 b0 ?_ ?_
      · intro k
        rw [Bool.eq_iff_iff, lookupKey_isSome_iff, lookupKey_isSome_iff]
        exact hiff k
      · intro k v w hv hw
        have hmem := lookupKey_eq_some_mem hv
        obtain ⟨w2, hw2, hdvw⟩ := hobj (k, v) hmem
        have hww : w2 = w := Option.some.inj (hw2.symm.trans hw)
        rw [hww] at hdvw
        have hle2 : 1 + sizeOf a0 ≤ n + 1 := by simpa using hle
        have hsz : sizeOf v ≤ n := by
          have := sizeOf_snd_lt_of_mem hmem
          simp at this
          omega
        exact ih v w hsz hdvw (ha.obj_mem _ hmem)
          (hb.obj_mem _ (lookupKey_eq_some_mem hw))

/-- Completeness of the code's `deepEqual` for the spec-level `DeepEq`,
bounded by value size to drive the induction. -/
theorem deepEqual_complete : ∀ (n : Nat) (a b : Value), sizeOf a ≤ n →
    DeepEq a b → WFV a → WFV b → deepEqual a b = true := by
  intro n
  induction n with
  | zero =>
    intro a b hle hdq ha hb
    exfalso
    cases a <;> simp at hle
  | succ n ih =>
    intro a b hle hdq ha hb
    cases hdq with
    | vNull => simp [deepEqual]
    | vBool x => simp [deepEqual]
    | vInt x => simp [deepEqual]
    | vFloat x => simp [deepEqual]
    | vStr x => simp [deepEqual]
    | vNilList => simp [deepEqual]
    | vNilObj => simp [deepEqual]
    | nilList_emptyList => cases ha
    | emptyList_nilList => cases hb
    | nilObj_emptyObj => cases ha
    | emptyObj_nilObj => cases hb
    | vList xs ys hlen hptw =>
      simp only [deepEqual]
      rw [deepEqualList_eq_true_iff]
      refine ⟨hlen, ?_⟩
      intro i x y hx hy
      have hmem : x ∈ xs := List.getElem?_mem hx
      have hle2 : 1 + sizeOf xs ≤ n + 1 := by simpa using hle
      have hsz : sizeOf x ≤ n := by
        have := List.sizeOf_lt_of_mem hmem
        omega
      exact ih x y hsz (hptw i x y hx hy) (ha.list_mem x hmem)
        (hb.list_mem y (List.getElem?_mem hy))
    | vObj a0 b0 hsome hptw =>
      simp only [deepEqual, Bool.and_eq_true, beq_iff_eq]
      have hiff : ∀ k, k ∈ a0.map Prod.fst ↔ k ∈ b0.map Prod.fst := by
        intro k
        rw [← lookupKey_isSome_iff, ← lookupKey_isSome_iff, hsome k]
      constructor
      · exact length_eq_of_keys_iff ha.obj_nodup hb.obj_nodup hiff
      · rw [deepEqualObj_eq_true_iff]
        intro p hp
        obtain ⟨k, v⟩ := p
        have hlk : lookupKey a0 k = some v :=
          lookupKey_eq_some_of_nodup ha.obj_nodup hp
        have hsk := hsome k
        rw [hlk] at hsk
        cases hw : lookupKey b0 k with
        | none => rw [hw] at hsk; simp at hsk
        | some w =>
          refine ⟨w, rfl, ?_⟩
          have hle2 : 1 + sizeOf a0 ≤ n + 1 := by simpa using hle
          have hsz : sizeOf v ≤ n := by
            have := sizeOf_snd_lt_of_mem hp
            simp at this
            omega
          exact ih v w hsz (hptw k v w hlk hw) (ha.obj_mem _ hp)
            (hb.obj_mem _ (lookupKey_eq_some_mem hw))

/-- The code's `deepEqual` decides exactly the specification's deep
equality, on well-formed (distinct-key) values. -/
theorem deepEqual_eq_true_iff_DeepEq {a b : Value} (ha : WFV a)
    (hb : WFV b) : deepEqual a b = true ↔ DeepEq a b :=
  ⟨fun h => deepEqual_sound (sizeOf a) a b (Nat.le_refl _) h ha hb,
   fun h => deepEqual_complete (sizeOf a) a b (Nat.le_refl _) h ha hb⟩

/-- Dedup preserves the finite set of elements. -/
theorem dedup_toFinset_eq (l : List String) :
    l.dedup.toFinset = l.toFinset := by
  ext k
  simp only [List.mem_toFinset, List.mem_dedup]

/-- Scanning a projected list is scanning the original through the
projection. -/
theorem all_fst_map (N : VarMap) (f : String → Bool) :
    (N.map Prod.fst).all f = N.all fun p => f p.1 := by
  induction N with
  | nil => rfl
  | cons q rest ih => simp [ih]

/-- The `KeyOnlyVariables` verdict computed from the key list alone. -/
theorem keyonly_factors (kv : KeyOnlyVariables) (N : VarMap) :
    KeyOnlyVariables.compareVariables kv N =
      (kv.dedup.length == (N.map Prod.fst).length &&
        (N.map Prod.fst).all fun k => kv.dedup.contains k) := by
  simp only [KeyOnlyVariables.compareVariables, all_fst_map,
    List.length_map]

/-- C2: `KeyOnlyVariables.CompareVariables` accepts exactly when the incoming
map's key set equals the set of registered keys; values are never inspected,
so any two maps with the same keys receive the same verdict. -/
theorem C2_keyonly_matches_keyset (kv : KeyOnlyVariables) (M : VarMap)
    (hM : (M.map Prod.fst).Nodup) :
    (KeyOnlyVariables.compareVariables kv M = true ↔
        (M.map Prod.fst).toFinset = kv.toFinset) ∧
      ∀ M2 : VarMap, M2.map Prod.fst = M.map Prod.fst →
        KeyOnlyVariables.compareVariables kv M2 =
          KeyOnlyVariables.compareVariables kv M := by
  constructor
  · rw [keyonly_factors, Bool.and_eq_true, beq_iff_eq]
    have hkd : kv.dedup.Nodup := List.nodup_dedup kv
    have hcd : kv.dedup.toFinset.card = kv.dedup.length :=
      List.toFinset_card_of_nodup hkd
    have hcM : (M.map Prod.fst).toFinset.card = (M.map Prod.fst).length :=
      List.toFinset_card_of_nodup hM
    rw [dedup_toFinset_eq] at hcd
    constructor
    · rintro ⟨hlen, hall⟩
      have hsub : (M.map Prod.fst).toFinset ⊆ kv.toFinset := by
        intro k hk
        rw [List.mem_toFinset] at hk ⊢
        rw [List.all_eq_true] at hall
        have := hall k hk
        rw [List.elem_iff] at this
        exact List.mem_dedup.mp this
      exact Finset.eq_of_subset_of_card_le hsub (by omega)
    · intro hfe
      rw [hfe] at hcM
      refine ⟨by omega, ?_⟩
      rw [List.all_eq_true]
      intro k hk
      rw [List.elem_iff, List.mem_dedup]
      have : k ∈ (M.map Prod.fst).toFinset := List.mem_toFinset.mpr hk
      rw [hfe, List.mem_toFinset] at this
      exact this
  · intro M2 hkeys
    rw [keyonly_factors, keyonly_factors, hkeys]

/-- C2 witness at a concrete key list and map. -/
theorem C2_keyonly_matches_keyset_witness :
    (([("foo", Value.vStr "x"), ("num", Value.vInt 1)] : VarMap).map
        Prod.fst).Nodup ∧
      (KeyOnlyVariables.compareVariables ["foo", "num"]
          [("foo", Value.vStr "x"), ("num", Value.vInt 1)] = true ↔
        (([("foo", Value.vStr "x"), ("num", Value.vInt 1)] : VarMap).map
            Prod.fst).toFinset = (["foo", "num"] : List String).toFinset) := by
  have hnd : (([("foo", Value.vStr "x"), ("num", Value.vInt 1)] : VarMap).map
      Prod.fst).Nodup := by simp
  exact ⟨hnd, (C2_keyonly_matches_keyset ["foo", "num"]
    [("foo", Value.vStr "x"), ("num", Value.vInt 1)] hnd).1⟩

/-- Membership in an insertion is membership in the parts. -/
theorem mem_insertSorted {p q : String × Value} {l : VarMap} :
    q ∈ insertSorted p l ↔ q = p ∨ q ∈ l := by
  induction l with
  | nil => simp [insertSorted]
  | cons r rest ih =>
    rw [insertSorted]
    by_cases hc : charListLe p.1.data r.1.data = true
    · simp [hc, List.mem_cons]
    · rw [Bool.not_eq_true] at hc
      simp only [hc, Bool.false_eq_true, if_false, List.mem_cons, ih]
      tauto

/-- Sorting by key preserves membership. -/
theorem mem_sortByKey {q : String × Value} {l : VarMap} :
    q ∈ sortByKey l ↔ q ∈ l := by
  induction l with
  | nil => simp [sortByKey]
  | cons p rest ih =>
    rw [sortByKey, mem_insertSorted]
    simp [ih]

/-- A field decode only ever succeeds on keys matching one of the two
declared JSON names case-insensitively. -/
theorem decodeField_key {acc acc2 : EncodedVariable} {p : String × Value}
    (h : decodeField acc p = some acc2) :
    jsonKeyMatches p.1 "foo" = true ∨ jsonKeyMatches p.1 "num" = true := by
  rw [decodeField] at h
  split at h
  · exact Or.inl (by assumption)
  · split at h
    · exact Or.inr (by assumption)
    · exact Option.noConfusion h

/-- Every key consumed by a successful decode fold matches a declared
field. -/
theorem foldlM_decodeField_keys :
    ∀ (l : List (String × Value)) (acc d : EncodedVariable),
      l.foldlM decodeField acc = some d →
      ∀ p ∈ l, jsonKeyMatches p.1 "foo" = true ∨
        jsonKeyMatches p.1 "num" = true := by
  intro l
  induction l with
  | nil =>
    intro acc d h p hp
    simp at hp
  | cons q rest ih =>
    intro acc d h p hp
    rw [List.foldlM_cons] at h
    cases hq : decodeField acc q with
    | none =>
      rw [hq] at h
      simp at h
    | some acc2 =>
      rw [hq] at h
      simp at h
      rcases List.mem_cons.mp hp with h0 | h0
      · rw [h0]
        exact decodeField_key hq
      · exact ih acc2 d h p h0

/-- C3: with the decode-capable reference (`EncodedVariable`), Exact-Value
matching succeeds exactly when the decode succeeds and yields the reference
value; a successful decode requires a non-empty incoming map with at most 2
keys and no key unknown to the target struct (keys are matched to fields
case-insensitively, as `encoding/json` does), so an extra or unknown field
is always rejected. -/
theorem C3_exact_decode (e : EncodedVariable) (M : GoMap) :
    (ExactVariables.compareVariables (.enc e) M = true ↔
        EncodedVariable.decodeVariable M.entries = some e) ∧
      ∀ d, EncodedVariable.decodeVariable M.entries = some d →
        M.entries ≠ [] ∧ M.entries.length ≤ 2 ∧
          ∀ p ∈ M.entries, jsonKeyMatches p.1 "foo" = true ∨
            jsonKeyMatches p.1 "num" = true := by
  constructor
  · cases hd : EncodedVariable.decodeVariable M.entries with
    | none => simp [ExactVariables.compareVariables, hd]
    | some got =>
      simp only [ExactVariables.compareVariables, hd, beq_iff_eq,
        Option.some.injEq]
      exact eq_comm
  · intro d hd
    rw [EncodedVariable.decodeVariable] at hd
    split at hd
    · exact Option.noConfusion hd
    · split at hd
      · exact Option.noConfusion hd
      · next h0 h2 =>
        refine ⟨?_, by omega, ?_⟩
        · intro hnil
          exact h0 (by rw [hnil]; rfl)
        · intro p hp
          exact foldlM_decodeField_keys _ _ d hd p (mem_sortByKey.mpr hp)

/-- C4 counterexample: a registered non-nil empty reference map compared
against a nil incoming map (the variable map of a body without a
`variables` field) yields false, although the two are deeply equal in the
specification's structural, element-wise sense. -/
theorem C4_counterexample :
    ExactVariables.compareVariables (.raw (GoMap.mk [])) GoMap.nilMap =
        false ∧
      DeepEq (GoMap.mk []).toValue GoMap.nilMap.toValue := by
  exact ⟨rfl, DeepEq.emptyObj_nilObj⟩

/-- C4 (amended): with a reference map that has no decode capability,
Exact-Value matching of non-nil maps free of nil collections decides
exactly the specification's deep equality; deep equality never identifies
scalars of mismatched dynamic type (integer vs string, integer vs float);
and a nil map or slice is never matched to a non-nil one, even an empty
one (`reflect.DeepEqual`'s both-nil-or-both-non-nil rule). -/
theorem C4_exact_raw_deep_equality (R M : VarMap)
    (hR : WFV (.vObj R)) (hM : WFV (.vObj M)) :
    (ExactVariables.compareVariables (.raw (GoMap.mk R)) (GoMap.mk M) =
        true ↔ DeepEq (.vObj R) (.vObj M)) ∧
      ((∀ (n : Int) (s : String), ¬ DeepEq (.vInt n) (.vStr s)) ∧
        ∀ (n : Int) (q : Rat), ¬ DeepEq (.vInt n) (.vFloat q)) ∧
      (∀ l : List (String × Value),
          deepEqual (.vObj l) .vNilObj = false ∧
          deepEqual .vNilObj (.vObj l) = false) ∧
      ∀ xs : List Value,
          deepEqual (.vList xs) .vNilList = false ∧
          deepEqual .vNilList (.vList xs) = false := by
  refine ⟨deepEqual_eq_true_iff_DeepEq hR hM, ⟨?_, ?_⟩, ?_, ?_⟩
  · intro n s h
    cases h
  · intro n q h
    cases h
  · intro l
    exact ⟨rfl, rfl⟩
  · intro xs
    exact ⟨rfl, rfl⟩

/-- C4 witness at a concrete singleton map. -/
theorem C4_exact_raw_deep_equality_witness :
    WFV (.vObj [("foo", Value.vInt 1)]) ∧
      (ExactVariables.compareVariables
          (.raw (GoMap.mk [("foo", Value.vInt 1)]))
          (GoMap.mk [("foo", Value.vInt 1)]) = true ↔
        DeepEq (.vObj [("foo", Value.vInt 1)])
          (.vObj [("foo", Value.vInt 1)])) := by
  have hw : WFV (.vObj [("foo", Value.vInt 1)]) := by
    refine WFV.vObj _ (by simp) ?_
    intro p hp
    rw [List.mem_singleton] at hp
    rw [hp]
    exact WFV.vInt 1
  exact ⟨hw, (C4_exact_raw_deep_equality _ _ hw hw).1⟩

/-- C5: a request whose trimmed query text does not start with the `query`
keyword is answered with the fixed not-found error envelope, regardless of
the registered entries. -/
theorem C5_operation_gate (qs : Registry) (req : Request)
    (h : goStartsWith (goTrimSpace req.query) "query" = false) :
    handler qs (.ok req) = respondError 404 msgNotFound none := by
  simp [handler, h]

/-- C5 witness: a mutation request is rejected even with a universally
matching entry registered under a contained identifier. -/
theorem C5_operation_gate_witness :
    goStartsWith (goTrimSpace "mutation Foo") "query" = false ∧
      handler [("Foo", [mAll])] (.ok ⟨"mutation Foo", []⟩) =
        respondError 404 msgNotFound none := by
  refine ⟨by decide, ?_⟩
  exact C5_operation_gate [("Foo", [mAll])] ⟨"mutation Foo", []⟩ (by decide)

/-- C7 (code behaviour at the slip): a body-decode failure yields the 500
internal-error envelope whose message is the format string's literal prefix
followed by fmt's `%e` bad-verb rendering of the error value — not the
error's own `Error()` message — and the outcome is independent of the
registry: no lookup is attempted. -/
theorem C7_decode_failure (qs : Registry) (e : DecodeError) :
    handler qs (.err e) = respondError 500 (decodeFailMessage e) none ∧
      decodeFailMessage e =
        "goraphql_mock_server: decode request body: " ++ e.rendering ∧
      handler qs (.err e) = handler [] (.err e) := by
  exact ⟨rfl, rfl, rfl⟩

/-- C9 counterexample: the not-found message is not the bare string
"mocked request not found"; it carries the module prefix. -/
theorem C9_counterexample :
    (handler [] (.ok ⟨"query x", []⟩)).2.errors =
        [{ message := msgNotFound, path := none, extensions := none }] ∧
      msgNotFound ≠ "mocked request not found" := by
  exact ⟨rfl, by decide⟩

/-- C9 (amended): every well-formed request the registry scan does not match
is answered with the 404 envelope whose message is the fixed string
"goraphql_mock_server: mocked request not found"; that message contains
"mocked request not found" and differs from every body-decode failure
message, so the two outcomes are distinguishable by message content. -/
theorem C9_notfound_distinct (qs : Registry) (req : Request)
    (h : scanRegistry qs req = none) :
    handler qs (.ok req) = respondError 404 msgNotFound none ∧
      goContains msgNotFound "mocked request not found" = true ∧
      ∀ e : DecodeError, decodeFailMessage e ≠ msgNotFound := by
  refine ⟨?_, by decide, ?_⟩
  · by_cases hg : goStartsWith (goTrimSpace req.query) "query" = true
    · simp [handler, hg, h]
    · rw [Bool.not_eq_true] at hg
      simp [handler, hg]
  · intro e heq
    have hd : ("goraphql_mock_server: decode request body: " : String).data
        ++ e.rendering.data = msgNotFound.data := by
      have h0 := congrArg String.data heq
      rwa [decodeFailMessage, String.data_append] at h0
    have h22 : (("goraphql_mock_server: decode request body: " :
        String).data ++ e.rendering.data)[22]? =
          (msgNotFound.data)[22]? := by
      rw [hd]
    rw [List.getElem?_append_left (by decide)] at h22
    have hL : (("goraphql_mock_server: decode request body: " :
        String).data)[22]? = some 'd' := by decide
    have hR : (msgNotFound.data)[22]? = some 'm' := by decide
    rw [hL, hR] at h22
    exact absurd (Option.some.inj h22) (by decide)

/-- C9 witness at the empty registry. -/
theorem C9_notfound_distinct_witness :
    scanRegistry [] { query := "query x", vars := [] } = none ∧
      handler [] (.ok { query := "query x", vars := [] }) =
        respondError 404 msgNotFound none := by
  refine ⟨rfl, ?_⟩
  exact (C9_notfound_distinct [] { query := "query x", vars := [] } rfl).1

/-- C8 counterexample: with identifier "\tquery" the dispatcher matches and
answers a request whose raw query contains it, although that identifier is
not a substring of the trimmed query text. -/
theorem C8_counterexample :
    handler [("\tquery", [mAll])] (.ok ⟨"\tquery x", []⟩) =
        respondResponse 200 mAll.response ∧
      goContains (goTrimSpace "\tquery x") "\tquery" = false := by
  exact ⟨rfl, by decide⟩

/-- C8 (amended): for a single-identifier registry, the identifier's entries
are scanned iff the identifier text is a substring of the raw (untrimmed)
query text, and that containment is case-sensitive plain substring
containment (an occurrence of the exact character sequence), with no
wildcard or regex support. -/
theorem C8_raw_containment (id : String) (entries : List MockedRequest)
    (req : Request) :
    (scanRegistry [(id, entries)] req =
        if goContains req.query id then scanEntries entries req.vars
        else none) ∧
      (goContains req.query id = true ↔
        ∃ pre post, req.query.data = pre ++ id.data ++ post) := by
  constructor
  · rw [scanRegistry]
    by_cases hc : goContains req.query id = true
    · rw [if_pos hc, if_pos hc]
      cases scanEntries entries req.vars <;> simp [scanRegistry]
    · rw [Bool.not_eq_true] at hc
      rw [hc]
      simp [scanRegistry]
  · exact goContains_eq_true_iff _ _

/-- C1 counterexample: a mutation request whose query contains the identifier
and whose variables both registered entries accept is answered with the
not-found envelope, not with A's response: the claim omits the
operation-type gate. -/
theorem C1_counterexample :
    goContains "mutation Foo" "Foo" = true ∧
      mA.compareVariables [] = true ∧ mB.compareVariables [] = true ∧
      handler [("Foo", [mA, mB])] (.ok ⟨"mutation Foo", []⟩) =
        respondError 404 msgNotFound none ∧
      respondError 404 msgNotFound none ≠ respondResponse 200 mA.response := by
  refine ⟨by decide, rfl, rfl, rfl, ?_⟩
  intro h
  exact absurd (congrArg Prod.fst h) (by decide)

/-- C1 (amended): for an eligible request (trimmed query starts with the
`query` keyword) whose query contains the identifier and whose variables
both matchers accept, registering A before B under that identifier makes the
dispatcher answer with A's response; the handler is a function, so a request
produces exactly one response. -/
theorem C1_registration_order (id : String) (A B : MockedRequest)
    (q : String) (v : VarMap)
    (hq : goStartsWith (goTrimSpace q) "query" = true)
    (hc : goContains q id = true)
    (hA : A.compareVariables v = true)
    (_hB : B.compareVariables v = true) :
    handler [(id, [A, B])] (.ok ⟨q, v⟩) = respondResponse 200 A.response := by
  simp [handler, hq, scanRegistry, hc, scanEntries, hA]

/-- C1 witness at concrete entries under one identifier. -/
theorem C1_registration_order_witness :
    goStartsWith (goTrimSpace "query Foo") "query" = true ∧
      goContains "query Foo" "Foo" = true ∧
      mA.compareVariables [] = true ∧ mB.compareVariables [] = true ∧
      handler [("Foo", [mA, mB])] (.ok ⟨"query Foo", []⟩) =
        respondResponse 200 mA.response := by
  refine ⟨by decide, by decide, rfl, rfl, ?_⟩
  exact C1_registration_order "Foo" mA mB "query Foo" []
    (by decide) (by decide) rfl rfl

/-- C10: the empty identifier is contained in every query text, so an entry
registered under it with an always-accepting matcher answers every eligible
request with its own response, whatever the query says. -/
theorem C10_empty_identifier (m : MockedRequest) (q : String) (v : VarMap)
    (hm : ∀ w : VarMap, m.compareVariables w = true)
    (hq : goStartsWith (goTrimSpace q) "query" = true) :
    goContains q "" = true ∧
      handler [("", [m])] (.ok ⟨q, v⟩) = respondResponse 200 m.response := by
  refine ⟨goContains_empty q, ?_⟩
  simp [handler, hq, scanRegistry, goContains_empty, scanEntries, hm v]

/-- C10 witness at a concrete eligible query. -/
theorem C10_empty_identifier_witness :
    (∀ w : VarMap, mAll.compareVariables w = true) ∧
      goStartsWith (goTrimSpace "query Anything") "query" = true ∧
      handler [("", [mAll])] (.ok ⟨"query Anything", []⟩) =
        respondResponse 200 mAll.response := by
  refine ⟨fun w => rfl, by decide, ?_⟩
  exact (C10_empty_identifier mAll "query Anything" [] (fun w => rfl)
    (by decide)).2

/-- C6 counterexample: the serialized not-found error envelope still carries
the data field (with a null value); it is not omitted. -/
theorem C6_counterexample :
    handler [] (.ok ⟨"query x", []⟩) = respondError 404 msgNotFound none ∧
      hasField (encodeResponse (respondError 404 msgNotFound none).2)
        "data" = true := by
  exact ⟨rfl, by decide⟩

/-- C6 (amended): a success response serializes with data holding the
payload and the errors field omitted; an error response serializes with an
errors array whose entries always carry message, path and extensions fields
(path and extensions null when absent) and with the data field present but
null, not omitted. -/
theorem C6_envelope_shape (payload : Value) (msg : String) :
    encodeResponse (respondResponse 200 payload).2 =
        .vObj [("data", payload)] ∧
      encodeResponse (respondError 404 msg none).2 =
        .vObj [("data", .vNull),
               ("errors", .vList [.vObj [("message", .vStr msg),
                 ("path", .vNull), ("extensions", .vNull)]])] := by
  exact ⟨rfl, rfl⟩

end GoraphqlMockServer
